import Mathlib

/-
Verification of the InfoGaiter retrieval pipeline (functions.py / config.py).

Text is modelled as `List Char`.  Pure Python functions are translated
directly; the two external numeric libraries that the repository calls are
modelled at the interface the repository uses:

* `sklearn` TF-IDF cosine similarity: an oracle parameter
  `simsOf : query → chunks → List ℚ` (one score per chunk).  The raising
  behaviour of `TfidfVectorizer().fit` on an empty vocabulary is modelled
  separately (`sklearnVocabEmpty`, the `...E` variants) from its documented
  token pattern `(?u)\b\w\w+\b`.
* `np.argsort`: a stable ascending insertion sort on (index, score) pairs.
  This is one admissible refinement of `np.argsort`, whose default
  quicksort is documented as not stable: the model is exact for arrays
  below the numpy small-array cutoff (where insertion sort is used), and
  for larger arrays only tie-order-independent consequences (the indices
  form an ascending-by-score permutation) transfer to the program.
  Claim-level theorems therefore rely on tie order only at concrete
  small inputs; universal statements drawn from this model are kept
  tie-order invariant.

Network results (Groq chat completions, API Ninjas similarity) are oracle
parameters as well: a call either raises or returns data, which is exactly
the case split performed by the code of the repository.
-/

namespace InfoGaiter

/-- Python whitespace (the ASCII fragment of `\s` and `str.split()`). -/
def isWS (c : Char) : Bool :=
  c = ' ' || c = '\t' || c = '\n' || c = '\r' || c = '\x0b' || c = '\x0c'

/-- Word characters of the regex class `\w` (ASCII fragment), as used by
the default token pattern of sklearn. -/
def isWordChar (c : Char) : Bool :=
  c.isAlphanum || c = '_'

/-- Sentence-final punctuation of the regex `(?<=[.!?])\s+` in
`_split_into_sentences`. -/
def isSentEnd (c : Char) : Bool :=
  c = '.' || c = '!' || c = '?'

/-- Convert a string literal to the character-list representation. -/
def chars (s : String) : List Char := s.toList

/-- The ASCII apostrophe character (used in several message literals). -/
def apos : Char := Char.ofNat 39

/-- Maximal runs of characters satisfying `p`; the accumulator holds the
current run reversed.  Instantiated to Python `str.split()` and to sklearn
tokenization. -/
def runsAux (p : Char → Bool) : List Char → List Char → List (List Char)
  | [], cur => if cur.isEmpty then [] else [cur.reverse]
  | c :: cs, cur =>
    if p c then runsAux p cs (c :: cur)
    else (if cur.isEmpty then [] else [cur.reverse]) ++ runsAux p cs []

/-- Maximal runs of characters satisfying `p`. -/
def runs (p : Char → Bool) (s : List Char) : List (List Char) := runsAux p s []

/-- Python `s.split()`: the maximal whitespace-free runs of `s`. -/
def pywords (s : List Char) : List (List Char) := runs (fun c => !(isWS c)) s

/-- Tokens produced by the default sklearn `token_pattern` (word runs):
maximal word-character runs of length at least two.  (Lowercasing is
irrelevant to whether any token exists.) -/
def sklearnTokens (s : List Char) : List (List Char) :=
  (runs isWordChar s).filter (fun t => 2 ≤ t.length)

/-- The condition under which `TfidfVectorizer().fit` raises
`ValueError: empty vocabulary`: no document yields any token. -/
def sklearnVocabEmpty (docs : List (List Char)) : Bool :=
  docs.all (fun d => (sklearnTokens d).isEmpty)

/-- Python `text.strip()` (ASCII whitespace fragment). -/
def stripChars (s : List Char) : List Char :=
  ((s.dropWhile isWS).reverse.dropWhile isWS).reverse

/-- Whether a list of characters starts with whitespace. -/
def headIsWS : List Char → Bool
  | [] => false
  | c :: _ => isWS c

/-- Scanner for `re.split(r"(?<=[.!?])\s+", text)`: a split point is a
whitespace run immediately after sentence-final punctuation; the whole run
is consumed.  `skipping` is true while the tail of such a run is being
consumed (the current accumulator is empty in that mode). -/
def sentScan : Bool → List Char → List Char → List (List Char)
  | _, acc, [] => [acc.reverse]
  | skipping, acc, c :: rest =>
    if skipping && isWS c then sentScan true acc rest
    else if isSentEnd c && headIsWS rest then
      (acc.reverse ++ [c]) :: sentScan true [] rest
    else sentScan false (c :: acc) rest

/-- `_split_into_sentences`: `re.split(r"(?<=[.!?])\s+", text.strip())`. -/
def split_into_sentences (text : List Char) : List (List Char) :=
  sentScan false [] (stripChars text)

/-- Configuration constant `MAX_WORDS_PER_CHUNK` from config.py. -/
def MAX_WORDS_PER_CHUNK : Nat := 500

/-- Configuration constant `TOP_K_CHUNKS_FOR_QA` from config.py. -/
def TOP_K_CHUNKS_FOR_QA : Nat := 3

/-- Configuration constant `MODEL_PRIORITY` from config.py. -/
def MODEL_PRIORITY : List String :=
  ["llama-3.3-70b-versatile", "llama-3.1-8b-instant"]

/-- The sentence-accumulation loop of `chunk_text`.  Chunks are kept as word
lists; the `wc` counter of the source always equals `len(current)`, so it is
represented by `current.length`, and `words = s.split()` is `pywords s`. -/
def chunkAux (L : Nat) : List (List Char) → List (List Char) → List (List (List Char))
  | [], current => if current.isEmpty then [] else [current]
  | s :: ss, current =>
    if (pywords s).isEmpty then chunkAux L ss current
    else if L < current.length + (pywords s).length then
      (if current.isEmpty then [] else [current]) ++ chunkAux L ss (pywords s)
    else chunkAux L ss (current ++ pywords s)

/-- Python `" ".join`. -/
def joinSpace : List (List Char) → List Char
  | [] => []
  | [w] => w
  | w :: ws => w ++ ' ' :: joinSpace ws

/-- `chunk_text(text, max_words)` from functions.py. -/
def chunk_text (text : List Char) (max_words : Nat) : List (List Char) :=
  (chunkAux max_words (split_into_sentences text) []).map joinSpace

/-- Stable insertion step for ascending argsort on (index, score) pairs. -/
def insIdx (x : Nat × ℚ) : List (Nat × ℚ) → List (Nat × ℚ)
  | [] => [x]
  | y :: ys => if y.2 < x.2 then y :: insIdx x ys else x :: y :: ys

/-- Stable ascending insertion sort on (index, score) pairs. -/
def isortIdx : List (Nat × ℚ) → List (Nat × ℚ)
  | [] => []
  | x :: xs => insIdx x (isortIdx xs)

/-- Pair each score with its index, starting from `n`. -/
def enumFromQ (n : Nat) : List ℚ → List (Nat × ℚ)
  | [] => []
  | x :: xs => (n, x) :: enumFromQ (n + 1) xs

/-- `np.argsort(sims)`: indices of `sims` sorted by score ascending.  The
insertion sort used here keeps equal scores in index order; numpy
guarantees this only below its small-array insertion-sort cutoff (its
default quicksort is not stable), so facts about the program may use this
tie order only at such small concrete inputs, while universal facts must
depend only on the ascending-by-score property. -/
def argsortAsc (sims : List ℚ) : List Nat :=
  (isortIdx (enumFromQ 0 sims)).map Prod.fst

/-- `np.argsort(sims)[::-1][:K]` from `_tfidf_best_pdf_and_chunks`. -/
def topIdx (sims : List ℚ) (K : Nat) : List Nat :=
  ((argsortAsc sims).reverse).take K

/-- `float(np.mean(top_scores)) if top_scores else 0.0`. -/
def avgTop (tops : List ℚ) : ℚ :=
  if tops.isEmpty then 0 else tops.sum / (tops.length : ℚ)

/-- `top_scores = [sims[i] for i in top_idx]`. -/
def topScores (sims : List ℚ) : List ℚ :=
  (topIdx sims TOP_K_CHUNKS_FOR_QA).map (fun i => sims.getD i 0)

/-- The per-document aggregate (`avg_score`) of `_tfidf_best_pdf_and_chunks`. -/
def aggScore (sims : List ℚ) : ℚ := avgTop (topScores sims)

/-- `[chunks[i] for i in top_idx]`. -/
def selChunks (sims : List ℚ) (chunks : List (List Char)) : List (List Char) :=
  (topIdx sims TOP_K_CHUNKS_FOR_QA).map (fun i => chunks.getD i [])

/-- The running best of the document loop in `_tfidf_best_pdf_and_chunks`. -/
structure BestAcc where
  pdf : Option String
  score : ℚ
  chunks : List (List Char)

/-- One iteration of the document loop of `_tfidf_best_pdf_and_chunks`:
documents with no chunks are skipped, and the best is replaced only on a
strictly greater aggregate score. -/
def bestStep (chunksOf : String → List (List Char))
    (simsOf : List Char → List (List Char) → List ℚ)
    (query : List Char) (acc : BestAcc) (pdf : String) : BestAcc :=
  if (chunksOf pdf).isEmpty then acc
  else if acc.score < aggScore (simsOf query (chunksOf pdf)) then
    ⟨some pdf, aggScore (simsOf query (chunksOf pdf)),
      selChunks (simsOf query (chunksOf pdf)) (chunksOf pdf)⟩
  else acc

/-- `_tfidf_best_pdf_and_chunks(query, pdf_names)`.  `chunksOf` is the
composition of text extraction and `chunk_text` for a document name;
`simsOf` is the TF-IDF cosine-similarity oracle. -/
def tfidf_best_pdf_and_chunks (chunksOf : String → List (List Char))
    (simsOf : List Char → List (List Char) → List ℚ)
    (query : List Char) (pdf_names : List String) :
    String × List (List Char) × ℚ :=
  ((pdf_names.foldl (bestStep chunksOf simsOf query) ⟨none, -1, []⟩).pdf.getD (""),
    (pdf_names.foldl (bestStep chunksOf simsOf query) ⟨none, -1, []⟩).chunks,
    max (pdf_names.foldl (bestStep chunksOf simsOf query) ⟨none, -1, []⟩).score 0)

/-- A role-tagged chat message. -/
structure Msg where
  role : String
  content : List Char

/-- Outcome of one `client.chat.completions.create` call: either an
exception, or a response whose (possibly empty) choice texts are listed. -/
inductive ModelOutcome where
  | raises (err : List Char)
  | returns (choices : List (List Char))

/-- The model-priority loop of `_chat_complete`: a response with a non-empty
choice list returns its first text; an empty choice list falls through
without recording an error; an exception records the error and continues.
When the list is exhausted, the last error is embedded in the returned
text (Python formats an absent error as `None`). -/
def chatLoop (attempt : String → ModelOutcome) :
    List String → Option (List Char) → List Char
  | [], lastErr =>
    chars ("[LLM error: ") ++
      (match lastErr with
       | none => chars ("None")
       | some e => e) ++ [']']
  | m :: ms, lastErr =>
    match attempt m with
    | .returns (c :: _) => c
    | .returns [] => chatLoop attempt ms lastErr
    | .raises e => chatLoop attempt ms (some e)

/-- The no-client fallback of `_chat_complete`: the last user turn truncated
to 800 characters, with an ellipsis when it was truncated. -/
def lastUserFallback (messages : List Msg) : List Char :=
  match messages.reverse.find? (fun m => m.role == "user") with
  | some m =>
    m.content.take 800 ++ (if 800 < m.content.length then chars ("...") else [])
  | none => chars ("[No Groq API key configured]")

/-- `_chat_complete(messages)`: `client` is `none` when no usable credential
is configured (`_get_client()` returned `None`), otherwise the per-model
call oracle. -/
def chat_complete (client : Option (String → ModelOutcome))
    (models : List String) (messages : List Msg) : List Char :=
  match client with
  | none => lastUserFallback messages
  | some attempt => chatLoop attempt models none

/-- Stable insertion step for the descending sort
`scored.sort(key=lambda x: x[0], reverse=True)`. -/
def insDesc (x : ℚ × List Char) : List (ℚ × List Char) → List (ℚ × List Char)
  | [] => [x]
  | y :: ys => if y.1 ≤ x.1 then x :: y :: ys else y :: insDesc x ys

/-- Stable descending insertion sort by score (Python `list.sort` with
`reverse=True` is stable). -/
def sortDesc : List (ℚ × List Char) → List (ℚ × List Char)
  | [] => []
  | x :: xs => insDesc x (sortDesc xs)

/-- `_api_ninjas_refine(query, chunks)`.  `keyConfigured` is false when the
key is absent or the placeholder; `sim` gives each per-chunk call a
similarity, with 0 standing for a failed or non-ok call exactly as in the
source. -/
def api_ninjas_refine (keyConfigured : Bool)
    (sim : List Char → List Char → ℚ)
    (query : List Char) (chunks : List (List Char)) : List (List Char) :=
  if !keyConfigured then chunks
  else (sortDesc (chunks.map (fun c => (sim query c, c)))).map Prod.snd

/-- Python `sep.join`. -/
def joinSep (sep : List Char) : List (List Char) → List Char
  | [] => []
  | [x] => x
  | x :: xs => x ++ sep ++ joinSep sep xs

/-- The literal no-PDFs message of the orchestrators. -/
def noPdfsMsg : List Char :=
  chars ("[No PDFs found in the ") ++ [apos] ++ chars ("pdfs") ++ [apos] ++
    chars (" folder.]")

/-- The literal `"[Could not determine a relevant PDF for this question]"`. -/
def noRelevantMsg : List Char :=
  chars ("[Could not determine a relevant PDF for this question]")

/-- The literal no-match message of `summarize_on_prompt`. -/
def noSummaryMsg : List Char :=
  chars ("[Could not find relevant information to summarize. Please try again or refer the website]")

/-- The user prompt built by `answer_question_auto`. -/
def answerPrompt (best_pdf : String) (context question : List Char) : List Char :=
  chars ("You are answering a question about the PDF titled ") ++ [apos] ++
    chars best_pdf ++ [apos] ++ chars (".\n") ++
    chars ("Use ONLY the context below. If the answer is not present, say so clearly.\n\n") ++
    chars ("Context:\n") ++ context ++ chars ("\n\nQuestion: ") ++ question ++
    chars ("\n") ++
    chars ("Answer concisely and, when helpful, quote short snippets in parentheses.")

/-- The user prompt built by `summarize_on_prompt`. -/
def summaryPrompt (best_pdf : String) (context prompt_text : List Char) : List Char :=
  chars ("Based on the context snippets from the PDF ") ++ [apos] ++
    chars best_pdf ++ [apos] ++
    chars (", write a clean summary with short headings, covering the most relevant points to this request: ") ++
    [apos] ++ prompt_text ++ [apos] ++ chars (".\n\nContext:\n") ++ context

/-- The part of `answer_question_auto` after the ranking stage: the
guard on an empty best name, optional re-ranking, prompt construction and
generation. -/
def answerTail (ninjaKey : Bool) (ninjaSim : List Char → List Char → ℚ)
    (client : Option (String → ModelOutcome)) (question : List Char)
    (r : String × List (List Char) × ℚ) : List Char × String × ℚ :=
  if r.1 = "" then (noRelevantMsg, "", 0)
  else
    let top_chunks := api_ninjas_refine ninjaKey ninjaSim question r.2.1
    let context := joinSep (chars ("\n\n")) top_chunks
    let out := chat_complete client MODEL_PRIORITY
      [⟨"system", chars ("You are a precise academic assistant.")⟩,
       ⟨"user", answerPrompt r.1 context question⟩]
    (out, r.1, r.2.2)

/-- The part of `summarize_on_prompt` after the ranking stage (no
re-ranking is performed there). -/
def summarizeTail (client : Option (String → ModelOutcome))
    (prompt_text : List Char)
    (r : String × List (List Char) × ℚ) : List Char × String × ℚ :=
  if r.1 = "" then (noSummaryMsg, "", 0)
  else
    let context := joinSep (chars ("\n\n")) r.2.1
    let final := chat_complete client MODEL_PRIORITY
      [⟨"system", chars ("You create faithful, high-level summaries of academic/policy PDFs.")⟩,
       ⟨"user", summaryPrompt r.1 context prompt_text⟩]
    (final, r.1, r.2.2)

/-- `answer_question_auto(question)`: `pdfs` is the result of
`discover_pdfs()`. -/
def answer_question_auto (pdfs : List String)
    (chunksOf : String → List (List Char))
    (simsOf : List Char → List (List Char) → List ℚ)
    (ninjaKey : Bool) (ninjaSim : List Char → List Char → ℚ)
    (client : Option (String → ModelOutcome))
    (question : List Char) : List Char × String × ℚ :=
  if pdfs.isEmpty then (noPdfsMsg, "", 0)
  else answerTail ninjaKey ninjaSim client question
    (tfidf_best_pdf_and_chunks chunksOf simsOf question pdfs)

/-- The document loop of `_tfidf_best_pdf_and_chunks` with the raising
behaviour of `TfidfVectorizer().fit` made explicit: when a document has
chunks but `[query] + chunks` yields no token, the call raises
(`.error ()`) and the whole loop aborts. -/
def tfidfLoopE (chunksOf : String → List (List Char))
    (simsOf : List Char → List (List Char) → List ℚ) (query : List Char) :
    List String → BestAcc → Except Unit BestAcc
  | [], acc => .ok acc
  | pdf :: rest, acc =>
    if (chunksOf pdf).isEmpty then tfidfLoopE chunksOf simsOf query rest acc
    else if sklearnVocabEmpty (query :: chunksOf pdf) then .error ()
    else tfidfLoopE chunksOf simsOf query rest (bestStep chunksOf simsOf query acc pdf)

/-- `_tfidf_best_pdf_and_chunks` with the empty-vocabulary exception of
`TfidfVectorizer().fit` modelled. -/
def tfidf_best_pdf_and_chunksE (chunksOf : String → List (List Char))
    (simsOf : List Char → List (List Char) → List ℚ)
    (query : List Char) (pdf_names : List String) :
    Except Unit (String × List (List Char) × ℚ) :=
  (tfidfLoopE chunksOf simsOf query pdf_names ⟨none, -1, []⟩).map
    (fun r => (r.pdf.getD (""), r.chunks, max r.score 0))

/-- `answer_question_auto` with the empty-vocabulary exception modelled:
an exception raised by the ranking stage propagates uncaught. -/
def answer_question_autoE (pdfs : List String)
    (chunksOf : String → List (List Char))
    (simsOf : List Char → List (List Char) → List ℚ)
    (ninjaKey : Bool) (ninjaSim : List Char → List Char → ℚ)
    (client : Option (String → ModelOutcome))
    (question : List Char) : Except Unit (List Char × String × ℚ) :=
  if pdfs.isEmpty then .ok (noPdfsMsg, "", 0)
  else
    match tfidf_best_pdf_and_chunksE chunksOf simsOf question pdfs with
    | .error e => .error e
    | .ok r => .ok (answerTail ninjaKey ninjaSim client question r)

/-- `summarize_on_prompt` with the empty-vocabulary exception modelled. -/
def summarize_on_promptE (pdfs : List String)
    (chunksOf : String → List (List Char))
    (simsOf : List Char → List (List Char) → List ℚ)
    (client : Option (String → ModelOutcome))
    (prompt_text : List Char) : Except Unit (List Char × String × ℚ) :=
  if pdfs.isEmpty then .ok (noPdfsMsg, "", 0)
  else
    match tfidf_best_pdf_and_chunksE chunksOf simsOf prompt_text pdfs with
    | .error e => .error e
    | .ok r => .ok (summarizeTail client prompt_text r)

/- ────────────────────────────────────────────────────────────────────────
Theorems
──────────────────────────────────────────────────────────────────────── -/

theorem insDesc_perm (x : ℚ × List Char) (l : List (ℚ × List Char)) :
    List.Perm (insDesc x l) (x :: l) := by
  induction l with
  | nil => simp [insDesc]
  | cons y ys ih =>
    simp only [insDesc]
    by_cases h : y.1 ≤ x.1
    · simp [h]
    · rw [if_neg h]
      exact (ih.cons y).trans (List.Perm.swap x y ys)

theorem sortDesc_perm (l : List (ℚ × List Char)) : List.Perm (sortDesc l) l := by
  induction l with
  | nil => simp [sortDesc]
  | cons x xs ih => exact (insDesc_perm x (sortDesc xs)).trans (ih.cons x)

/-- C8: for every query and input chunk list, `_api_ninjas_refine` returns a
permutation of its input (same chunks as a multiset, possibly reordered,
never dropped or added), whether or not the similarity service is
configured and whatever each per-chunk call returns. -/
theorem api_ninjas_refine_perm (keyConfigured : Bool)
    (sim : List Char → List Char → ℚ) (query : List Char)
    (chunks : List (List Char)) :
    List.Perm (api_ninjas_refine keyConfigured sim query chunks) chunks := by
  unfold api_ninjas_refine
  by_cases h : keyConfigured
  · rw [if_neg (by simp [h])]
    have hp := (sortDesc_perm (chunks.map (fun c => (sim query c, c)))).map Prod.snd
    rw [List.map_map] at hp
    have hid : (Prod.snd ∘ fun c : List Char => (sim query c, c)) = fun c => c := rfl
    rw [hid] at hp
    simpa using hp
  · simp [h]

/-- C2: evaluation of the public operations at a query and corpus whose
combined text yields no valid term (no token of two or more word
characters): the modelled `TfidfVectorizer().fit` raises, and the
exception propagates uncaught out of both `answer_question_auto` and
`summarize_on_prompt`, contradicting the claimed totality. -/
theorem answer_and_summarize_raise_on_empty_vocab :
    answer_question_autoE ["numbers.pdf"]
        (fun _ => chunk_text (chars ("1 2 3.")) MAX_WORDS_PER_CHUNK)
        (fun _ _ => []) false (fun _ _ => 0) none (chars ("?")) = .error () ∧
    summarize_on_promptE ["numbers.pdf"]
        (fun _ => chunk_text (chars ("1 2 3.")) MAX_WORDS_PER_CHUNK)
        (fun _ _ => []) none (chars ("?")) = .error () :=
  ⟨rfl, rfl⟩

theorem find?_eq_none_of_forall {α : Type} (p : α → Bool) (l : List α)
    (h : ∀ x ∈ l, p x = false) : l.find? p = none := by
  induction l with
  | nil => rfl
  | cons x xs ih =>
    rw [List.find?_cons_of_neg _ (by simp [h x (by simp)])]
    exact ih (fun y hy => h y (by simp [hy]))

/-- C6: with no credential configured, `_chat_complete` returns the content
of the last user-role turn truncated to 800 characters, with an ellipsis
marker appended if and only if that content exceeds 800 characters.  The
last user turn is characterised by its position: no message after it has
the user role. -/
theorem chat_complete_no_key (models : List String) (l1 l2 : List Msg) (m : Msg)
    (hm : m.role = "user") (hl2 : ∀ m2 ∈ l2, m2.role ≠ "user") :
    chat_complete none models (l1 ++ m :: l2) =
      m.content.take 800 ++
        (if 800 < m.content.length then chars ("...") else []) := by
  unfold chat_complete lastUserFallback
  have hrev : (l1 ++ m :: l2).reverse = l2.reverse ++ m :: l1.reverse := by
    simp
  rw [hrev, List.find?_append]
  rw [find?_eq_none_of_forall _ l2.reverse
    (fun x hx => by
      have := hl2 x (List.mem_reverse.mp hx)
      simp [this])]
  rw [List.find?_cons_of_pos _ (by simp [hm])]
  simp

/-- Witness for C6 at a concrete message list. -/
theorem chat_complete_no_key_witness :
    (Msg.mk ("user") (chars ("hi"))).role = "user" ∧
    chat_complete none MODEL_PRIORITY
        [⟨"user", chars ("hi")⟩, ⟨"system", chars ("s")⟩] = chars ("hi") := by
  refine ⟨rfl, ?_⟩
  have h := chat_complete_no_key MODEL_PRIORITY [] [⟨"system", chars ("s")⟩]
    ⟨"user", chars ("hi")⟩ rfl (by decide)
  rw [List.nil_append] at h
  rw [h]
  decide

theorem chatLoop_all_raise (attempt : String → ModelOutcome) (ms : List String)
    (rest : List String)
    (h : ∀ x ∈ ms, ∃ e, attempt x = .raises e) :
    ∀ le, ∃ le2, chatLoop attempt (ms ++ rest) le = chatLoop attempt rest le2 := by
  induction ms with
  | nil => exact fun le => ⟨le, rfl⟩
  | cons m ms ih =>
    intro le
    obtain ⟨e, he⟩ := h m (by simp)
    have hstep : chatLoop attempt (m :: ms ++ rest) le
        = chatLoop attempt (ms ++ rest) (some e) := by
      rw [List.cons_append]
      show (match attempt m with
        | .returns (c :: _) => c
        | .returns [] => chatLoop attempt (ms ++ rest) le
        | .raises e => chatLoop attempt (ms ++ rest) (some e)) = _
      rw [he]
    obtain ⟨le2, h2⟩ := ih (fun x hx => h x (by simp [hx])) (some e)
    exact ⟨le2, by rw [hstep, h2]⟩

/-- C7: with a credential configured, the first model whose call succeeds
with a non-empty choice list determines the returned text (models after it
play no role); if the call of every model raises, the returned text embeds the
last error message, and in both cases a text is returned rather than an
exception being propagated. -/
theorem chat_complete_priority :
    (∀ (attempt : String → ModelOutcome) (ms1 : List String) (mN : String)
        (ms2 : List String) (c : List Char) (cs : List (List Char))
        (msgs : List Msg),
        (∀ x ∈ ms1, ∃ e, attempt x = .raises e) →
        attempt mN = .returns (c :: cs) →
        chat_complete (some attempt) (ms1 ++ mN :: ms2) msgs = c) ∧
    (∀ (attempt : String → ModelOutcome) (ms : List String) (mL : String)
        (eL : List Char) (msgs : List Msg),
        (∀ x ∈ ms, ∃ e, attempt x = .raises e) →
        attempt mL = .raises eL →
        chat_complete (some attempt) (ms ++ [mL]) msgs =
          chars ("[LLM error: ") ++ eL ++ [']']) := by
  constructor
  · intro attempt ms1 mN ms2 c cs msgs h hN
    show chatLoop attempt (ms1 ++ mN :: ms2) none = c
    obtain ⟨le2, hrw⟩ := chatLoop_all_raise attempt ms1 (mN :: ms2) h none
    rw [hrw]
    show (match attempt mN with
      | .returns (c :: _) => c
      | .returns [] => chatLoop attempt ms2 le2
      | .raises e => chatLoop attempt ms2 (some e)) = c
    rw [hN]
  · intro attempt ms mL eL msgs h hL
    show chatLoop attempt (ms ++ [mL]) none = _
    obtain ⟨le2, hrw⟩ := chatLoop_all_raise attempt ms [mL] h none
    rw [hrw]
    show (match attempt mL with
      | .returns (c :: _) => c
      | .returns [] => chatLoop attempt [] le2
      | .raises e => chatLoop attempt [] (some e)) = _
    rw [hL]
    rfl

/-- Witness for C7: a first model that raises and a second that succeeds,
and a run where both models raise. -/
theorem chat_complete_priority_witness :
    chat_complete
        (some (fun m => if m = "m1" then ModelOutcome.raises (chars ("boom"))
                        else ModelOutcome.returns [chars ("ok")]))
        ["m1", "m2"] [] = chars ("ok") ∧
    chat_complete (some (fun _ => ModelOutcome.raises (chars ("boom"))))
        ["m1", "m2"] [] = chars ("[LLM error: ") ++ chars ("boom") ++ [']'] := by
  constructor
  · exact chat_complete_priority.1 _ ["m1"] "m2" [] (chars ("ok")) [] []
      (by
        intro x hx
        rw [List.mem_singleton] at hx
        subst hx
        exact ⟨chars ("boom"), rfl⟩)
      rfl
  · exact chat_complete_priority.2 _ ["m1"] "m2" (chars ("boom")) []
      (by
        intro x hx
        exact ⟨chars ("boom"), rfl⟩)
      rfl

theorem bestStep_keep (chunksOf : String → List (List Char))
    (simsOf : List Char → List (List Char) → List ℚ) (query : List Char)
    (acc : BestAcc) (p : String)
    (h : (chunksOf p).isEmpty = false →
      aggScore (simsOf query (chunksOf p)) ≤ acc.score) :
    bestStep chunksOf simsOf query acc p = acc := by
  unfold bestStep
  by_cases hc : (chunksOf p).isEmpty
  · rw [if_pos hc]
  · have hc' : (chunksOf p).isEmpty = false := by simpa using hc
    rw [if_neg hc, if_neg (not_lt.mpr (h hc'))]

theorem foldl_bestStep_keep (chunksOf : String → List (List Char))
    (simsOf : List Char → List (List Char) → List ℚ) (query : List Char) :
    ∀ (l : List String) (acc : BestAcc),
    (∀ p ∈ l, (chunksOf p).isEmpty = false →
      aggScore (simsOf query (chunksOf p)) ≤ acc.score) →
    l.foldl (bestStep chunksOf simsOf query) acc = acc := by
  intro l
  induction l with
  | nil => intro acc _; rfl
  | cons p ps ih =>
    intro acc h
    rw [List.foldl_cons, bestStep_keep chunksOf simsOf query acc p (h p (by simp))]
    exact ih acc (fun q hq => h q (by simp [hq]))

theorem foldl_bestStep_first (chunksOf : String → List (List Char))
    (simsOf : List Char → List (List Char) → List ℚ) (query : List Char)
    (p : String) (hc : (chunksOf p).isEmpty = false) :
    ∀ (l1 l2 : List String) (acc : BestAcc),
    acc.score < aggScore (simsOf query (chunksOf p)) →
    (∀ q ∈ l1, (chunksOf q).isEmpty = false →
      aggScore (simsOf query (chunksOf q)) < aggScore (simsOf query (chunksOf p))) →
    (∀ q ∈ l2, (chunksOf q).isEmpty = false →
      aggScore (simsOf query (chunksOf q)) ≤ aggScore (simsOf query (chunksOf p))) →
    (l1 ++ p :: l2).foldl (bestStep chunksOf simsOf query) acc =
      ⟨some p, aggScore (simsOf query (chunksOf p)),
        selChunks (simsOf query (chunksOf p)) (chunksOf p)⟩ := by
  intro l1
  induction l1 with
  | nil =>
    intro l2 acc hlt _ hl2
    rw [List.nil_append, List.foldl_cons]
    have hstep : bestStep chunksOf simsOf query acc p =
        ⟨some p, aggScore (simsOf query (chunksOf p)),
          selChunks (simsOf query (chunksOf p)) (chunksOf p)⟩ := by
      unfold bestStep
      rw [if_neg (by simp [hc]), if_pos hlt]
    rw [hstep]
    exact foldl_bestStep_keep chunksOf simsOf query l2 _ (fun q hq hq2 => hl2 q hq hq2)
  | cons q l1' ih =>
    intro l2 acc hlt hl1 hl2
    rw [List.cons_append, List.foldl_cons]
    refine ih l2 _ ?_ (fun r hr h2 => hl1 r (by simp [hr]) h2) hl2
    unfold bestStep
    by_cases hqc : (chunksOf q).isEmpty
    · rw [if_pos hqc]; exact hlt
    · have hqc' : (chunksOf q).isEmpty = false := by simpa using hqc
      by_cases hq2 : acc.score < aggScore (simsOf query (chunksOf q))
      · rw [if_neg hqc, if_pos hq2]
        exact hl1 q (by simp) hqc'
      · rw [if_neg hqc, if_neg hq2]; exact hlt

/-- C5: `_tfidf_best_pdf_and_chunks` selects the earliest document
attaining the maximum aggregate score: a later document replaces the
current best only when its aggregate is strictly greater, so among all
documents with chunks, the first one whose aggregate is strictly above
every earlier one and at least every later one is returned, with its
chunks and (nonnegative) aggregate score. -/
theorem tfidf_first_wins (chunksOf : String → List (List Char))
    (simsOf : List Char → List (List Char) → List ℚ) (query : List Char)
    (l1 l2 : List String) (p : String)
    (hc : (chunksOf p).isEmpty = false)
    (hpos : 0 ≤ aggScore (simsOf query (chunksOf p)))
    (hl1 : ∀ q ∈ l1, (chunksOf q).isEmpty = false →
      aggScore (simsOf query (chunksOf q)) < aggScore (simsOf query (chunksOf p)))
    (hl2 : ∀ q ∈ l2, (chunksOf q).isEmpty = false →
      aggScore (simsOf query (chunksOf q)) ≤ aggScore (simsOf query (chunksOf p))) :
    tfidf_best_pdf_and_chunks chunksOf simsOf query (l1 ++ p :: l2) =
      (p, selChunks (simsOf query (chunksOf p)) (chunksOf p),
        aggScore (simsOf query (chunksOf p))) := by
  unfold tfidf_best_pdf_and_chunks
  rw [foldl_bestStep_first chunksOf simsOf query p hc l1 l2 ⟨none, -1, []⟩
    (lt_of_lt_of_le (by norm_num) hpos) hl1 hl2]
  simp [max_eq_left hpos]

/-- Witness for C5: two documents with equal aggregate scores; the first
one is returned. -/
theorem tfidf_first_wins_witness :
    ((fun (_ : String) => [chars ("x.")]) "a.pdf").isEmpty = false ∧
    tfidf_best_pdf_and_chunks (fun _ => [chars ("x.")]) (fun _ _ => [(1 : ℚ)/2])
        (chars ("q")) ["a.pdf", "b.pdf"] =
      ("a.pdf", [chars ("x.")], (1 : ℚ)/2) := by
  refine ⟨by decide, ?_⟩
  have h := tfidf_first_wins (fun _ => [chars ("x.")]) (fun _ _ => [(1 : ℚ)/2])
    (chars ("q")) [] ["b.pdf"] "a.pdf" (by decide)
    (by norm_num [aggScore, avgTop, topScores, topIdx, argsortAsc, isortIdx,
      insIdx, enumFromQ, TOP_K_CHUNKS_FOR_QA, sup_eq_max, inf_eq_min, max_def, min_def])
    (by intro q hq; simp at hq) (by intro q _ _; exact le_refl _)
  rw [List.nil_append] at h
  rw [h]
  norm_num [selChunks, aggScore, avgTop, topScores, topIdx, argsortAsc,
    isortIdx, insIdx, enumFromQ, TOP_K_CHUNKS_FOR_QA, sup_eq_max, inf_eq_min, max_def, min_def]

theorem foldl_bestStep_score_cases (chunksOf : String → List (List Char))
    (simsOf : List Char → List (List Char) → List ℚ) (query : List Char) :
    ∀ (l : List String) (acc : BestAcc),
    l.foldl (bestStep chunksOf simsOf query) acc = acc ∨
      ∃ p ∈ l, (l.foldl (bestStep chunksOf simsOf query) acc).score =
        aggScore (simsOf query (chunksOf p)) := by
  intro l
  induction l with
  | nil => intro acc; left; rfl
  | cons q qs ih =>
    intro acc
    rw [List.foldl_cons]
    have hstep : bestStep chunksOf simsOf query acc q = acc ∨
        (bestStep chunksOf simsOf query acc q).score =
          aggScore (simsOf query (chunksOf q)) := by
      unfold bestStep
      by_cases hc : (chunksOf q).isEmpty
      · left; rw [if_pos hc]
      · by_cases hlt : acc.score < aggScore (simsOf query (chunksOf q))
        · right; rw [if_neg hc, if_pos hlt]
        · left; rw [if_neg hc, if_neg hlt]
    rcases ih (bestStep chunksOf simsOf query acc q) with heq | ⟨p, hp, hs⟩
    · rw [heq]
      rcases hstep with h1 | h1
      · left; exact h1
      · right; exact ⟨q, by simp, h1⟩
    · right; exact ⟨p, by simp [hp], hs⟩

theorem getD_nonneg (sims : List ℚ) (h : ∀ s ∈ sims, 0 ≤ s) (i : Nat) :
    0 ≤ sims.getD i 0 := by
  rw [List.getD_eq_getElem?_getD]
  cases hg : sims[i]? with
  | none => simp
  | some v =>
    simp only [Option.getD_some]
    exact h v (List.getElem?_mem hg)

theorem aggScore_nonneg (sims : List ℚ) (h : ∀ s ∈ sims, 0 ≤ s) :
    0 ≤ aggScore sims := by
  unfold aggScore avgTop
  by_cases he : (topScores sims).isEmpty
  · rw [if_pos he]
  · rw [if_neg he]
    apply div_nonneg
    · apply List.sum_nonneg
      intro x hx
      obtain ⟨i, _, rfl⟩ := List.mem_map.mp hx
      exact getD_nonneg sims h i
    · exact Nat.cast_nonneg _

theorem aggScore_zero (sims : List ℚ) (h : ∀ s ∈ sims, s = 0) :
    aggScore sims = 0 := by
  unfold aggScore avgTop
  by_cases he : (topScores sims).isEmpty
  · rw [if_pos he]
  · rw [if_neg he]
    have hsum : (topScores sims).sum = 0 := by
      apply List.sum_eq_zero
      intro x hx
      obtain ⟨i, _, rfl⟩ := List.mem_map.mp hx
      rw [List.getD_eq_getElem?_getD]
      cases hg : sims[i]? with
      | none => simp
      | some v =>
        simp only [Option.getD_some]
        exact h v (List.getElem?_mem hg)
    rw [hsum, zero_div]

/-- C9 (amended): appending a document all of whose chunk similarities are
exactly zero never changes the result of `_tfidf_best_pdf_and_chunks`,
provided similarities are nonnegative (as cosine similarities of TF-IDF
vectors are) and some document was previously selected. -/
theorem tfidf_append_zero_doc (chunksOf : String → List (List Char))
    (simsOf : List Char → List (List Char) → List ℚ) (query : List Char)
    (names : List String) (d : String)
    (hnn : ∀ p ∈ names, ∀ s ∈ simsOf query (chunksOf p), 0 ≤ s)
    (hz : ∀ s ∈ simsOf query (chunksOf d), s = 0)
    (hsel : (tfidf_best_pdf_and_chunks chunksOf simsOf query names).1 ≠ "") :
    tfidf_best_pdf_and_chunks chunksOf simsOf query (names ++ [d]) =
      tfidf_best_pdf_and_chunks chunksOf simsOf query names := by
  have hR0 : 0 ≤ (names.foldl (bestStep chunksOf simsOf query) ⟨none, -1, []⟩).score := by
    rcases foldl_bestStep_score_cases chunksOf simsOf query names ⟨none, -1, []⟩ with
      heq | ⟨p, hp, hs⟩
    · exfalso
      apply hsel
      show (names.foldl (bestStep chunksOf simsOf query) ⟨none, -1, []⟩).pdf.getD ("") = ""
      rw [heq]
      rfl
    · rw [hs]
      exact aggScore_nonneg _ (hnn p hp)
  have hd : bestStep chunksOf simsOf query
      (names.foldl (bestStep chunksOf simsOf query) ⟨none, -1, []⟩) d =
      names.foldl (bestStep chunksOf simsOf query) ⟨none, -1, []⟩ := by
    apply bestStep_keep
    intro _
    rw [aggScore_zero _ hz]
    exact hR0
  unfold tfidf_best_pdf_and_chunks
  rw [List.foldl_append, List.foldl_cons, List.foldl_nil, hd]

/-- C9 counterexample: appending a document whose single chunk has
near-zero (10⁻⁶) similarity to the query changes the selected best
document, because the previously selected document scored exactly 0. -/
theorem tfidf_near_zero_changes_selection :
    (tfidf_best_pdf_and_chunks
        (fun p => if p = "z.pdf" then [chars ("zx.")] else [chars ("ax.")])
        (fun _ cs => if cs = [chars ("zx.")] then [(1 : ℚ)/1000000] else [0])
        (chars ("q")) ["a.pdf"]).1 = "a.pdf" ∧
    (tfidf_best_pdf_and_chunks
        (fun p => if p = "z.pdf" then [chars ("zx.")] else [chars ("ax.")])
        (fun _ cs => if cs = [chars ("zx.")] then [(1 : ℚ)/1000000] else [0])
        (chars ("q")) ["a.pdf", "z.pdf"]).1 = "z.pdf" := by
  constructor <;>
    norm_num +decide [tfidf_best_pdf_and_chunks, bestStep, selChunks, aggScore, avgTop,
      topScores, topIdx, argsortAsc, isortIdx, insIdx, enumFromQ, chars, TOP_K_CHUNKS_FOR_QA, sup_eq_max, inf_eq_min, max_def, min_def]

/-- Witness for C9: appending an exactly-zero-similarity document leaves
the result unchanged on a concrete corpus. -/
theorem tfidf_append_zero_doc_witness :
    tfidf_best_pdf_and_chunks
        (fun p => if p = "z.pdf" then [chars ("zx.")] else [chars ("ax.")])
        (fun _ cs => if cs = [chars ("zx.")] then [(0 : ℚ)] else [(1 : ℚ)/2])
        (chars ("q")) ["a.pdf", "z.pdf"] =
      tfidf_best_pdf_and_chunks
        (fun p => if p = "z.pdf" then [chars ("zx.")] else [chars ("ax.")])
        (fun _ cs => if cs = [chars ("zx.")] then [(0 : ℚ)] else [(1 : ℚ)/2])
        (chars ("q")) ["a.pdf"] :=
  tfidf_append_zero_doc _ _ _ ["a.pdf"] "z.pdf"
    (by
      intro p hp s hs
      rw [List.mem_singleton] at hp
      subst hp
      simp only [List.mem_singleton, if_neg (by decide : ¬("a.pdf" : String) = "z.pdf")] at hs
      rw [if_neg (by decide : ¬[chars ("ax.")] = [chars ("zx.")]), List.mem_singleton] at hs
      rw [hs]
      norm_num)
    (by
      intro s hs
      rw [if_pos (by decide : ("z.pdf" : String) = "z.pdf")] at hs
      rw [if_pos (by decide : [chars ("zx.")] = [chars ("zx.")]), List.mem_singleton] at hs
      exact hs)
    (by
      norm_num +decide [tfidf_best_pdf_and_chunks, bestStep, selChunks, aggScore, avgTop,
        topScores, topIdx, argsortAsc, isortIdx, insIdx, enumFromQ, chars, TOP_K_CHUNKS_FOR_QA, sup_eq_max, inf_eq_min, max_def, min_def])

/-- C10: the document id and score returned by `answer_question_auto` are
exactly the ones produced by the ranking stage, for every configuration of
the re-ranker and of the generation client (so re-ranking can only affect
the answer text). -/
theorem answer_metadata_fixed (pdfs : List String)
    (chunksOf : String → List (List Char))
    (simsOf : List Char → List (List Char) → List ℚ)
    (ninjaKey : Bool) (ninjaSim : List Char → List Char → ℚ)
    (client : Option (String → ModelOutcome)) (question : List Char)
    (h : (tfidf_best_pdf_and_chunks chunksOf simsOf question pdfs).1 ≠ "") :
    (answer_question_auto pdfs chunksOf simsOf ninjaKey ninjaSim client question).2 =
      ((tfidf_best_pdf_and_chunks chunksOf simsOf question pdfs).1,
        (tfidf_best_pdf_and_chunks chunksOf simsOf question pdfs).2.2) := by
  unfold answer_question_auto
  have hne : pdfs.isEmpty = false := by
    cases pdfs with
    | nil => exact absurd rfl h
    | cons a as => rfl
  rw [if_neg (by simp [hne])]
  unfold answerTail
  rw [if_neg h]

/-- Witness for C10 on a concrete corpus. -/
theorem answer_metadata_fixed_witness :
    (tfidf_best_pdf_and_chunks (fun _ => [chars ("x.")]) (fun _ _ => [(1 : ℚ)/2])
        (chars ("q")) ["a.pdf"]).1 ≠ "" ∧
    (answer_question_auto ["a.pdf"] (fun _ => [chars ("x.")])
        (fun _ _ => [(1 : ℚ)/2]) true (fun _ _ => 0) none (chars ("q"))).2 =
      ("a.pdf", (1 : ℚ)/2) := by
  have hsel : (tfidf_best_pdf_and_chunks (fun _ => [chars ("x.")])
      (fun _ _ => [(1 : ℚ)/2]) (chars ("q")) ["a.pdf"]).1 ≠ "" := by
    norm_num +decide [tfidf_best_pdf_and_chunks, bestStep, selChunks, aggScore, avgTop,
      topScores, topIdx, argsortAsc, isortIdx, insIdx, enumFromQ, chars, TOP_K_CHUNKS_FOR_QA, sup_eq_max, inf_eq_min, max_def, min_def]
  refine ⟨hsel, ?_⟩
  rw [answer_metadata_fixed ["a.pdf"] (fun _ => [chars ("x.")])
    (fun _ _ => [(1 : ℚ)/2]) true (fun _ _ => 0) none (chars ("q")) hsel]
  norm_num +decide [tfidf_best_pdf_and_chunks, bestStep, selChunks, aggScore, avgTop,
    topScores, topIdx, argsortAsc, isortIdx, insIdx, enumFromQ, chars, TOP_K_CHUNKS_FOR_QA, sup_eq_max, inf_eq_min, max_def, min_def]

/-- C1 counterexample: a document with two chunks of equal similarity; the
chunk list returned by `_tfidf_best_pdf_and_chunks` lists them in reverse
of their in-document order, refuting the claimed preservation of original
order among equal scores.  (At this size the stable argsort model is
exact: numpy sorts arrays below its small-array cutoff with insertion
sort, so the real program returns exactly this reversed order.) -/
theorem tfidf_equal_scores_order :
    (tfidf_best_pdf_and_chunks (fun _ => [chars ("A."), chars ("B.")])
        (fun _ _ => [(1 : ℚ)/2, (1 : ℚ)/2]) (chars ("q")) ["d.pdf"]).2.1 =
      [chars ("B."), chars ("A.")] ∧
    [chars ("B."), chars ("A.")] ≠ [chars ("A."), chars ("B.")] := by
  refine ⟨?_, by decide⟩
  norm_num +decide [tfidf_best_pdf_and_chunks, bestStep, selChunks, aggScore, avgTop,
    topScores, topIdx, argsortAsc, isortIdx, insIdx, enumFromQ, chars, TOP_K_CHUNKS_FOR_QA, sup_eq_max, inf_eq_min, max_def, min_def]

theorem runsAux_append_break (p : Char → Bool) {w : Char} (hw : p w = false)
    (u v : List Char) :
    ∀ cur, runsAux p (u ++ w :: v) cur = runsAux p u cur ++ runsAux p v [] := by
  induction u with
  | nil =>
    intro cur
    show runsAux p (w :: v) cur = runsAux p [] cur ++ runsAux p v []
    simp [runsAux, hw]
  | cons c u' ih =>
    intro cur
    show runsAux p (c :: (u' ++ w :: v)) cur = runsAux p (c :: u') cur ++ runsAux p v []
    by_cases hc : p c = true
    · simp only [runsAux]
      rw [if_pos hc, if_pos hc]
      exact ih (c :: cur)
    · simp only [runsAux]
      rw [if_neg hc, if_neg hc, ih [], List.append_assoc]

theorem pywords_append_ws {w : Char} (hw : isWS w = true) (u v : List Char) :
    pywords (u ++ w :: v) = pywords u ++ pywords v :=
  runsAux_append_break (fun c => !(isWS c)) (by simp [hw]) u v []

theorem pywords_cons_ws {w : Char} (hw : isWS w = true) (v : List Char) :
    pywords (w :: v) = pywords v := by
  have h := pywords_append_ws hw [] v
  rw [List.nil_append] at h
  rw [h]
  rfl

theorem pywords_dropWhile_ws (v : List Char) :
    pywords (v.dropWhile isWS) = pywords v := by
  induction v with
  | nil => rfl
  | cons c v' ih =>
    rw [List.dropWhile_cons]
    by_cases hc : isWS c = true
    · rw [if_pos hc, ih, pywords_cons_ws hc]
    · rw [if_neg hc]

theorem pywords_eq_nil_of_all_ws (v : List Char) (h : ∀ c ∈ v, isWS c = true) :
    pywords v = [] := by
  induction v with
  | nil => rfl
  | cons c v' ih =>
    rw [pywords_cons_ws (h c (by simp))]
    exact ih (fun x hx => h x (by simp [hx]))

theorem pywords_append_all_ws (u v : List Char) (h : ∀ c ∈ v, isWS c = true) :
    pywords (u ++ v) = pywords u := by
  cases v with
  | nil => rw [List.append_nil]
  | cons c v' =>
    rw [pywords_append_ws (h c (by simp)) u v',
      pywords_eq_nil_of_all_ws v' (fun x hx => h x (by simp [hx])), List.append_nil]

theorem pywords_strip (t : List Char) : pywords (stripChars t) = pywords t := by
  unfold stripChars
  have h1 : ∀ u : List Char, pywords ((u.reverse.dropWhile isWS).reverse) = pywords u := by
    intro u
    have hsplit : u = (u.reverse.dropWhile isWS).reverse ++ (u.reverse.takeWhile isWS).reverse := by
      rw [← List.reverse_append, List.takeWhile_append_dropWhile, List.reverse_reverse]
    conv_rhs => rw [hsplit]
    rw [pywords_append_all_ws _ _
      (fun c hc => List.mem_takeWhile_imp (List.mem_reverse.mp hc))]
  rw [h1 (t.dropWhile isWS), pywords_dropWhile_ws]

theorem sentScan_words : ∀ (s acc : List Char) (skipping : Bool),
    (skipping = true → acc = []) →
    ((sentScan skipping acc s).map pywords).flatten = pywords (acc.reverse ++ s) := by
  intro s
  induction s with
  | nil =>
    intro acc skipping _
    show ([acc.reverse].map pywords).flatten = pywords (acc.reverse ++ [])
    simp
  | cons c rest ih =>
    intro acc skipping hsk
    by_cases h1 : (skipping && isWS c) = true
    · have hskip : skipping = true := (Bool.and_eq_true _ _).mp h1 |>.1
      have hws : isWS c = true := (Bool.and_eq_true _ _).mp h1 |>.2
      have hacc : acc = [] := hsk hskip
      rw [show sentScan skipping acc (c :: rest) = sentScan true acc rest from by
        simp only [sentScan]; rw [if_pos h1]]
      rw [ih acc true (fun _ => hacc)]
      subst hacc
      simp only [List.reverse_nil, List.nil_append]
      rw [pywords_cons_ws hws]
    · by_cases h2 : (isSentEnd c && headIsWS rest) = true
      · cases rest with
        | nil =>
          exact absurd ((Bool.and_eq_true _ _).mp h2).2 (by simp [headIsWS])
        | cons r rest' =>
          have hr : isWS r = true := by
            have := ((Bool.and_eq_true _ _).mp h2).2
            simpa [headIsWS] using this
          rw [show sentScan skipping acc (c :: r :: rest') =
              (acc.reverse ++ [c]) :: sentScan true [] (r :: rest') from by
            simp only [sentScan]; rw [if_neg h1, if_pos h2]]
          rw [List.map_cons, List.flatten_cons]
          rw [ih [] true (fun _ => rfl)]
          simp only [List.reverse_nil, List.nil_append]
          rw [pywords_cons_ws hr]
          have hx := pywords_append_ws hr (acc.reverse ++ [c]) rest'
          rw [← hx, List.append_assoc, List.singleton_append]
      · rw [show sentScan skipping acc (c :: rest) = sentScan false (c :: acc) rest from by
          simp only [sentScan]; rw [if_neg h1, if_neg h2]]
        rw [ih (c :: acc) false (by simp)]
        rw [List.reverse_cons, List.append_assoc, List.singleton_append]

theorem chunkAux_join (L : Nat) : ∀ (ss cur : List (List Char)),
    (chunkAux L ss cur).flatten = cur ++ (ss.map pywords).flatten := by
  intro ss
  induction ss with
  | nil =>
    intro cur
    simp only [chunkAux]
    by_cases h : cur.isEmpty = true
    · rw [if_pos h]
      simp [List.isEmpty_iff.mp h]
    · rw [if_neg h]
      simp
  | cons s ss' ih =>
    intro cur
    simp only [chunkAux]
    by_cases h1 : (pywords s).isEmpty = true
    · rw [if_pos h1, ih cur]
      simp [List.isEmpty_iff.mp h1]
    · rw [if_neg h1]
      by_cases h2 : L < cur.length + (pywords s).length
      · rw [if_pos h2, List.flatten_append, ih (pywords s)]
        by_cases h3 : cur.isEmpty = true
        · rw [if_pos h3]
          simp [List.isEmpty_iff.mp h3]
        · rw [if_neg h3]
          simp
      · rw [if_neg h2, ih (cur ++ pywords s)]
        simp

theorem runsAux_good (p : Char → Bool) : ∀ (s cur : List Char),
    (∀ c ∈ cur, p c = true) →
    ∀ w ∈ runsAux p s cur, w ≠ [] ∧ ∀ c ∈ w, p c = true := by
  intro s
  induction s with
  | nil =>
    intro cur hcur w hw
    simp only [runsAux] at hw
    by_cases h : cur.isEmpty = true
    · rw [if_pos h] at hw
      simp at hw
    · rw [if_neg h] at hw
      rw [List.mem_singleton] at hw
      subst hw
      constructor
      · intro hcontra
        rw [List.reverse_eq_nil_iff] at hcontra
        simp [hcontra] at h
      · intro x hx
        exact hcur x (List.mem_reverse.mp hx)
  | cons c' cs ih =>
    intro cur hcur w hw
    simp only [runsAux] at hw
    by_cases hc : p c' = true
    · rw [if_pos hc] at hw
      refine ih (c' :: cur) ?_ w hw
      intro x hx
      rcases List.mem_cons.mp hx with h | h
      · rw [h]; exact hc
      · exact hcur x h
    · rw [if_neg hc] at hw
      rcases List.mem_append.mp hw with h | h
      · by_cases he : cur.isEmpty = true
        · rw [if_pos he] at h
          simp at h
        · rw [if_neg he] at h
          rw [List.mem_singleton] at h
          subst h
          constructor
          · intro hcontra
            rw [List.reverse_eq_nil_iff] at hcontra
            simp [hcontra] at he
          · intro x hx
            exact hcur x (List.mem_reverse.mp hx)
      · exact ih [] (by simp) w h

theorem pywords_good (s : List Char) :
    ∀ w ∈ pywords s, w ≠ [] ∧ ∀ c ∈ w, isWS c = false := by
  intro w hw
  have h := runsAux_good (fun c => !(isWS c)) s [] (by simp) w hw
  exact ⟨h.1, fun c hc => by simpa using h.2 c hc⟩

theorem runsAux_all_true (p : Char → Bool) : ∀ (s cur : List Char),
    (∀ c ∈ s, p c = true) →
    runsAux p s cur =
      if (cur.reverse ++ s).isEmpty then [] else [cur.reverse ++ s] := by
  intro s
  induction s with
  | nil =>
    intro cur _
    simp only [runsAux, List.append_nil]
    by_cases h : cur.isEmpty = true
    · rw [if_pos h, if_pos (by simp [List.isEmpty_iff.mp h])]
    · rw [if_neg h, if_neg (by
        intro hcontra
        rw [List.isEmpty_iff, List.reverse_eq_nil_iff] at hcontra
        simp [hcontra] at h)]
  | cons c cs ih =>
    intro cur h
    simp only [runsAux]
    rw [if_pos (h c (by simp)), ih (c :: cur) (fun x hx => h x (by simp [hx])),
      List.reverse_cons, List.append_assoc, List.singleton_append]

theorem pywords_single (w : List Char) (hne : w ≠ [])
    (hgood : ∀ c ∈ w, isWS c = false) : pywords w = [w] := by
  have h := runsAux_all_true (fun c => !(isWS c)) w []
    (fun c hc => by simp [hgood c hc])
  rw [List.reverse_nil, List.nil_append] at h
  show runsAux (fun c => !(isWS c)) w [] = [w]
  rw [h, if_neg (by simpa [List.isEmpty_iff] using hne)]

theorem pywords_joinSpace : ∀ (ws : List (List Char)),
    (∀ w ∈ ws, w ≠ [] ∧ ∀ c ∈ w, isWS c = false) →
    pywords (joinSpace ws) = ws
  | [], _ => rfl
  | [w], h => by
    show pywords w = [w]
    exact pywords_single w (h w (by simp)).1 (h w (by simp)).2
  | w :: x :: xs, h => by
    show pywords (w ++ ' ' :: joinSpace (x :: xs)) = w :: x :: xs
    rw [pywords_append_ws (by decide) w (joinSpace (x :: xs)),
      pywords_single w (h w (by simp)).1 (h w (by simp)).2,
      pywords_joinSpace (x :: xs) (fun y hy => h y (List.mem_cons_of_mem w hy)),
      List.singleton_append]

theorem chunkAux_good (L : Nat) : ∀ (ss cur : List (List Char)),
    (∀ w ∈ cur, w ≠ [] ∧ ∀ c ∈ w, isWS c = false) →
    ∀ ch ∈ chunkAux L ss cur, ∀ w ∈ ch, w ≠ [] ∧ ∀ c ∈ w, isWS c = false := by
  intro ss
  induction ss with
  | nil =>
    intro cur hcur ch hch
    simp only [chunkAux] at hch
    by_cases h : cur.isEmpty = true
    · rw [if_pos h] at hch
      simp at hch
    · rw [if_neg h] at hch
      rw [List.mem_singleton] at hch
      rw [hch]
      exact hcur
  | cons s ss' ih =>
    intro cur hcur ch hch
    simp only [chunkAux] at hch
    by_cases h1 : (pywords s).isEmpty = true
    · rw [if_pos h1] at hch
      exact ih cur hcur ch hch
    · rw [if_neg h1] at hch
      by_cases h2 : L < cur.length + (pywords s).length
      · rw [if_pos h2] at hch
        rcases List.mem_append.mp hch with h | h
        · by_cases h3 : cur.isEmpty = true
          · rw [if_pos h3] at h
            simp at h
          · rw [if_neg h3] at h
            rw [List.mem_singleton] at h
            rw [h]
            exact hcur
        · exact ih (pywords s) (fun w hw => pywords_good s w hw) ch h
      · rw [if_neg h2] at hch
        refine ih (cur ++ pywords s) ?_ ch hch
        intro w hw
        rcases List.mem_append.mp hw with h | h
        · exact hcur w h
        · exact pywords_good s w h

/-- C3: for every text and limit, the words of the chunks returned by
`chunk_text`, concatenated in chunk order, are exactly the
whitespace-separated word sequence of the input text. -/
theorem chunk_text_words (text : List Char) (L : Nat) (hL : 0 < L) :
    ((chunk_text text L).map pywords).flatten = pywords text := by
  unfold chunk_text
  rw [List.map_map]
  have hmap : (chunkAux L (split_into_sentences text) []).map (pywords ∘ joinSpace)
      = (chunkAux L (split_into_sentences text) []).map id := by
    apply List.map_congr_left
    intro ch hch
    show pywords (joinSpace ch) = ch
    exact pywords_joinSpace ch (chunkAux_good L (split_into_sentences text) [] (by simp) ch hch)
  rw [hmap, List.map_id, chunkAux_join L (split_into_sentences text) [],
    List.nil_append]
  unfold split_into_sentences
  rw [sentScan_words (stripChars text) [] false (by simp)]
  simp only [List.reverse_nil, List.nil_append]
  exact pywords_strip text

/-- Witness for C3 on a concrete text and limit. -/
theorem chunk_text_words_witness :
    0 < 2 ∧ ((chunk_text (chars ("Hi there. Go!")) 2).map pywords).flatten =
      pywords (chars ("Hi there. Go!")) :=
  ⟨by decide, chunk_text_words (chars ("Hi there. Go!")) 2 (by decide)⟩

theorem chunkAux_mem (L : Nat) : ∀ (ss cur : List (List Char))
    (ch : List (List Char)), ch ∈ chunkAux L ss cur →
    ch.length ≤ L ∨ (∃ s ∈ ss, ch = pywords s) ∨ ch = cur := by
  intro ss
  induction ss with
  | nil =>
    intro cur ch hch
    simp only [chunkAux] at hch
    by_cases h : cur.isEmpty = true
    · rw [if_pos h] at hch
      simp at hch
    · rw [if_neg h] at hch
      rw [List.mem_singleton] at hch
      right; right; exact hch
  | cons s ss' ih =>
    intro cur ch hch
    simp only [chunkAux] at hch
    by_cases h1 : (pywords s).isEmpty = true
    · rw [if_pos h1] at hch
      rcases ih cur ch hch with h | ⟨t, ht, he⟩ | h
      · left; exact h
      · right; left; exact ⟨t, by simp [ht], he⟩
      · right; right; exact h
    · rw [if_neg h1] at hch
      by_cases h2 : L < cur.length + (pywords s).length
      · rw [if_pos h2] at hch
        rcases List.mem_append.mp hch with h | h
        · by_cases h3 : cur.isEmpty = true
          · rw [if_pos h3] at h
            simp at h
          · rw [if_neg h3] at h
            rw [List.mem_singleton] at h
            right; right; exact h
        · rcases ih (pywords s) ch h with hx | ⟨t, ht, he⟩ | hx
          · left; exact hx
          · right; left; exact ⟨t, by simp [ht], he⟩
          · right; left; exact ⟨s, by simp, hx⟩
      · rw [if_neg h2] at hch
        rcases ih (cur ++ pywords s) ch hch with hx | ⟨t, ht, he⟩ | hx
        · left; exact hx
        · right; left; exact ⟨t, by simp [ht], he⟩
        · left
          rw [hx, List.length_append]
          omega

/-- C4: every chunk produced by `chunk_text` holds at most `L` words,
except that a chunk may consist of the words of one single sentence longer
than `L` (the limit is a soft cap; sentences are never split). -/
theorem chunk_text_soft_cap (text : List Char) (L : Nat) (hL : 0 < L) :
    ∀ ch ∈ chunk_text text L, (pywords ch).length ≤ L ∨
      ∃ s ∈ split_into_sentences text,
        pywords ch = pywords s ∧ L < (pywords s).length := by
  intro ch hch
  unfold chunk_text at hch
  obtain ⟨cw, hcw, rfl⟩ := List.mem_map.mp hch
  rw [pywords_joinSpace cw (chunkAux_good L (split_into_sentences text) [] (by simp) cw hcw)]
  rcases chunkAux_mem L (split_into_sentences text) [] cw hcw with h | ⟨s, hs, he⟩ | h
  · left; exact h
  · by_cases hlen : cw.length ≤ L
    · left; exact hlen
    · right
      refine ⟨s, hs, he, ?_⟩
      rw [← he]
      exact not_le.mp hlen
  · left
    simp [h]

/-- Witness for C4: a single four-word sentence with limit 1 is kept
whole, and the theorem's disjunction holds for it. -/
theorem chunk_text_soft_cap_witness :
    0 < 1 ∧ ∀ ch ∈ chunk_text (chars ("a b c")) 1, (pywords ch).length ≤ 1 ∨
      ∃ s ∈ split_into_sentences (chars ("a b c")),
        pywords ch = pywords s ∧ 1 < (pywords s).length :=
  ⟨by decide, chunk_text_soft_cap (chars ("a b c")) 1 (by decide)⟩

theorem mem_insIdx (x : Nat × ℚ) (l : List (Nat × ℚ)) (z : Nat × ℚ)
    (hz : z ∈ insIdx x l) : z = x ∨ z ∈ l := by
  induction l with
  | nil =>
    simp only [insIdx] at hz
    rw [List.mem_singleton] at hz
    left; exact hz
  | cons y ys ih =>
    simp only [insIdx] at hz
    by_cases h : y.2 < x.2
    · rw [if_pos h] at hz
      rcases List.mem_cons.mp hz with h1 | h1
      · right; simp [h1]
      · rcases ih h1 with h2 | h2
        · left; exact h2
        · right; simp [h2]
    · rw [if_neg h] at hz
      rcases List.mem_cons.mp hz with h1 | h1
      · left; exact h1
      · right; exact h1

theorem insIdx_pairwise (x : Nat × ℚ) (l : List (Nat × ℚ))
    (hl : l.Pairwise (fun a b => a.2 < b.2 ∨ (a.2 = b.2 ∧ a.1 < b.1)))
    (hx : ∀ y ∈ l, x.2 = y.2 → x.1 < y.1) :
    (insIdx x l).Pairwise (fun a b => a.2 < b.2 ∨ (a.2 = b.2 ∧ a.1 < b.1)) := by
  induction l with
  | nil => simp [insIdx]
  | cons y ys ih =>
    simp only [insIdx]
    rcases List.pairwise_cons.mp hl with ⟨hy, hys⟩
    by_cases h : y.2 < x.2
    · rw [if_pos h]
      apply List.pairwise_cons.mpr
      constructor
      · intro z hz
        rcases mem_insIdx x ys z hz with h1 | h1
        · rw [h1]; left; exact h
        · exact hy z h1
      · exact ih hys (fun z hz hz2 => hx z (by simp [hz]) hz2)
    · rw [if_neg h]
      apply List.pairwise_cons.mpr
      constructor
      · intro z hz
        have hxy : x.2 ≤ y.2 := not_lt.mp h
        rcases List.mem_cons.mp hz with h1 | h1
        · rw [h1]
          rcases lt_or_eq_of_le hxy with h2 | h2
          · left; exact h2
          · right; exact ⟨h2, hx y (by simp) h2⟩
        · rcases hy z h1 with h2 | ⟨h2, _⟩
          · left; exact lt_of_le_of_lt hxy h2
          · rcases lt_or_eq_of_le hxy with h3 | h3
            · left; rw [← h2]; exact h3
            · right
              exact ⟨by rw [h3, h2], hx z (by simp [h1]) (by rw [h3, h2])⟩
      · exact List.pairwise_cons.mpr ⟨hy, hys⟩

theorem mem_isortIdx (l : List (Nat × ℚ)) (z : Nat × ℚ) (hz : z ∈ isortIdx l) :
    z ∈ l := by
  induction l with
  | nil => simpa [isortIdx] using hz
  | cons x xs ih =>
    simp only [isortIdx] at hz
    rcases mem_insIdx x (isortIdx xs) z hz with h | h
    · simp [h]
    · simp [ih h]

theorem isortIdx_pairwise (l : List (Nat × ℚ))
    (hl : l.Pairwise (fun a b => a.1 < b.1)) :
    (isortIdx l).Pairwise (fun a b => a.2 < b.2 ∨ (a.2 = b.2 ∧ a.1 < b.1)) := by
  induction l with
  | nil => simp [isortIdx]
  | cons x xs ih =>
    simp only [isortIdx]
    rcases List.pairwise_cons.mp hl with ⟨hx, hxs⟩
    exact insIdx_pairwise x (isortIdx xs) (ih hxs)
      (fun y hy _ => hx y (mem_isortIdx xs y hy))

theorem enumFromQ_mem (l : List ℚ) : ∀ (n : Nat) (z : Nat × ℚ),
    z ∈ enumFromQ n l → n ≤ z.1 ∧ l.getD (z.1 - n) 0 = z.2 := by
  induction l with
  | nil =>
    intro n z hz
    simp [enumFromQ] at hz
  | cons x xs ih =>
    intro n z hz
    simp only [enumFromQ] at hz
    rcases List.mem_cons.mp hz with h | h
    · rw [h]
      exact ⟨le_refl n, by simp⟩
    · obtain ⟨h1, h2⟩ := ih (n + 1) z h
      refine ⟨by omega, ?_⟩
      have hsub : z.1 - n = (z.1 - (n + 1)) + 1 := by omega
      rw [hsub, List.getD_cons_succ]
      exact h2

theorem enumFromQ_pairwise (l : List ℚ) : ∀ (n : Nat),
    (enumFromQ n l).Pairwise (fun a b => a.1 < b.1) := by
  induction l with
  | nil =>
    intro n
    simp [enumFromQ]
  | cons x xs ih =>
    intro n
    simp only [enumFromQ]
    apply List.pairwise_cons.mpr
    refine ⟨?_, ih (n + 1)⟩
    intro z hz
    have h := (enumFromQ_mem xs (n + 1) z hz).1
    show n < z.1
    omega

/-- C1 (amended): the top-K index list computed by
`_tfidf_best_pdf_and_chunks` via `np.argsort(sims)[::-1][:K]` is ordered
by score descending.  The order among equal-scored positions is not part
of this guarantee: it is implementation-defined in numpy for large
arrays, and at small sizes (as in the counterexample) it is the reverse
of the in-document order, not the original order the claim asserts. -/
theorem topIdx_score_desc (sims : List ℚ) (K : Nat) :
    (topIdx sims K).Pairwise (fun i j =>
      sims.getD j 0 ≤ sims.getD i 0) := by
  have hpair := isortIdx_pairwise (enumFromQ 0 sims) (enumFromQ_pairwise sims 0)
  have hmem : ∀ z ∈ isortIdx (enumFromQ 0 sims), sims.getD z.1 0 = z.2 := by
    intro z hz
    have h := enumFromQ_mem sims 0 z (mem_isortIdx _ z hz)
    simpa using h.2
  have hpair2 : (isortIdx (enumFromQ 0 sims)).Pairwise (fun a b =>
      sims.getD a.1 0 < sims.getD b.1 0 ∨
        (sims.getD a.1 0 = sims.getD b.1 0 ∧ a.1 < b.1)) := by
    refine hpair.imp_of_mem ?_
    intro a b ha hb hab
    rcases hab with h | ⟨h1, h2⟩
    · left
      rw [hmem a ha, hmem b hb]
      exact h
    · right
      exact ⟨by rw [hmem a ha, hmem b hb]; exact h1, h2⟩
  have hmap : ((isortIdx (enumFromQ 0 sims)).map Prod.fst).Pairwise
      (fun i j => sims.getD i 0 < sims.getD j 0 ∨
        (sims.getD i 0 = sims.getD j 0 ∧ i < j)) := by
    rw [List.pairwise_map]
    exact hpair2
  unfold topIdx argsortAsc
  apply List.Pairwise.sublist (List.take_sublist K _)
  rw [List.pairwise_reverse]
  refine hmap.imp ?_
  intro a b hab
  rcases hab with h | ⟨h1, _⟩
  · exact le_of_lt h
  · exact le_of_eq h1

end InfoGaiter
